import Mathlib

/-!
Verification of the MedFin healthcare financial navigator against its
natural-language specification.  The repository's computational kernels
(FPL eligibility arithmetic, out-of-pocket cost estimation in the two
backend variants, bill negotiation, progress-percent display math, the
risk gauge ladder, and the LLM-backed plan generator's post-processing)
are embedded shallowly below; JavaScript numbers are modelled as exact
rationals, and the JavaScript falsy-default idiom is modelled explicitly.
Components of the recommendation engine that the repository only declares
types for (risk synthesis, ranking, plan assembly) are modelled from the
specification text, as marked in their doc comments.
-/

namespace MedFin

/-! ## Federal Poverty Level arithmetic
From healthcare-navigator/backend/server.js, route /api/assistance/eligible. -/

/-- The FPL threshold formula as written on server.js line 610:
base + perPerson * (householdSize - 1). -/
def fplThreshold (base perPerson householdSize : ℚ) : ℚ :=
  base + perPerson * (householdSize - 1)

/-- server.js line 608: hard-coded FPL base dollar amount. -/
def fplBase : ℚ := 14580

/-- server.js line 609: hard-coded FPL per-person increment. -/
def fplPerPerson : ℚ := 5140

/-- server.js line 611: fplPercentage = annualIncome / fplThreshold * 100. -/
def fplPercentage (annualIncome threshold : ℚ) : ℚ :=
  annualIncome / threshold * 100

/-- The threshold the /api/assistance/eligible handler actually computes,
using its hard-coded constants. -/
def serverFplThreshold (householdSize : ℚ) : ℚ :=
  fplThreshold fplBase fplPerPerson householdSize

/-- The FPL percentage the /api/assistance/eligible handler actually
computes for a given profile. -/
def serverFplPercentage (annualIncome householdSize : ℚ) : ℚ :=
  fplPercentage annualIncome (serverFplThreshold householdSize)

/-- technical_documentation.md section 3.3: the documented 2024 FPL base. -/
def docFplBase : ℚ := 15060

/-- technical_documentation.md section 3.3: the documented 2024 per-person
increment. -/
def docFplPerPerson : ℚ := 5380

/-! ## Out-of-pocket cost estimation
Two implementations of POST /api/estimate/calculate: the MongoDB-backed
server (healthcare-navigator/backend/server.js lines 390-444) and the
in-memory demo server (unnamed/part_003 lines 249-291). -/

structure InsuranceInfo where
  deductible : ℚ
  deductibleMet : ℚ
  outOfPocketMax : ℚ
  outOfPocketMet : ℚ
  coinsurance : ℚ
deriving DecidableEq, Repr

structure EstimateResult where
  totalCost : ℚ
  deductiblePortion : ℚ
  coinsurancePortion : ℚ
  totalOutOfPocket : ℚ
  insurancePays : ℚ
  deductibleRemaining : ℚ
  oopRemaining : ℚ
deriving DecidableEq, Repr

/-- server.js line 397: remaining deductible, clamped at zero. -/
def mongoRemainingDeductible (ins : InsuranceInfo) : ℚ :=
  max 0 (ins.deductible - ins.deductibleMet)

/-- server.js line 406: remaining out-of-pocket, computed WITHOUT a clamp. -/
def mongoRemainingOOP (ins : InsuranceInfo) : ℚ :=
  ins.outOfPocketMax - ins.outOfPocketMet

/-- The estimate response built by the MongoDB-backed server
(server.js lines 396-440). -/
def mongoEstimate (ins : InsuranceInfo) (totalCost : ℚ) : EstimateResult :=
  let remainingDeductible := mongoRemainingDeductible ins
  let costAfterDeductible := max 0 (totalCost - remainingDeductible)
  let coinsuranceAmount := costAfterDeductible * (ins.coinsurance / 100)
  let remainingOOP := mongoRemainingOOP ins
  let totalOutOfPocket := min (remainingDeductible + coinsuranceAmount) remainingOOP
  { totalCost := totalCost
    deductiblePortion := min remainingDeductible totalCost
    coinsurancePortion := coinsuranceAmount
    totalOutOfPocket := totalOutOfPocket
    insurancePays := totalCost - totalOutOfPocket
    deductibleRemaining := remainingDeductible
    oopRemaining := remainingOOP - totalOutOfPocket }

/-- The JavaScript idiom `Number(x) || d`, which substitutes the default
whenever the field is zero (part_003 lines 255-260). -/
def jsOrDefault (x d : ℚ) : ℚ :=
  if x = 0 then d else x

/-- part_003 line 272: the demo server's remaining out-of-pocket, clamped
at zero (after zero-defaulting of the maximum). -/
def demoRemainingOOP (ins : InsuranceInfo) : ℚ :=
  max 0 (jsOrDefault ins.outOfPocketMax 8000 - ins.outOfPocketMet)

/-- The estimate response built by the in-memory demo server
(part_003 lines 249-291), including its zero-defaulting of inputs. -/
def demoEstimate (ins : InsuranceInfo) (totalCost : ℚ) : EstimateResult :=
  let deductible := jsOrDefault ins.deductible 2000
  let deductibleMet := ins.deductibleMet
  let coinsurance := jsOrDefault ins.coinsurance 20
  let cost := totalCost
  let remainingDeductible := max 0 (deductible - deductibleMet)
  let costAfterDeductible := max 0 (cost - remainingDeductible)
  let coinsuranceAmount := costAfterDeductible * (coinsurance / 100)
  let remainingOOP := demoRemainingOOP ins
  let totalOutOfPocket := min (min remainingDeductible cost + coinsuranceAmount) remainingOOP
  { totalCost := cost
    deductiblePortion := min remainingDeductible cost
    coinsurancePortion := coinsuranceAmount
    totalOutOfPocket := totalOutOfPocket
    insurancePays := max 0 (cost - totalOutOfPocket)
    deductibleRemaining := remainingDeductible
    oopRemaining := max 0 (remainingOOP - totalOutOfPocket) }

/-! ## Bill negotiation
POST /api/bills/:id/negotiate in both backend variants. -/

structure BillRec where
  originalAmount : ℚ
  currentAmount : ℚ
  negotiatedAmount : Option ℚ
  status : String
deriving DecidableEq, Repr

/-- The MongoDB-backed negotiation update (server.js lines 546-569),
applied to a found bill. -/
def mongoNegotiate (b : BillRec) : BillRec :=
  { b with
    status := "negotiating"
    negotiatedAmount := some (b.originalAmount * (7 / 10)) }

/-- The demo-server negotiation update (part_003 lines 323-340), applied
to a found bill; it additionally rewrites currentAmount. -/
def demoNegotiate (b : BillRec) : BillRec :=
  let n := b.originalAmount * (7 / 10)
  { b with
    status := "negotiating"
    negotiatedAmount := some n
    currentAmount := n }

/-! ## Progress percent
calculateProgressPercent from medfin-frontend src/lib/utils.ts. -/

/-- JavaScript Math.round for the nonnegative arguments used here:
round half up. -/
def jsRound (q : ℚ) : ℤ :=
  ⌊q + 1 / 2⌋

/-- utils.ts lines 511-514: zero-guarded, rounded, capped at 100. -/
def calculateProgressPercent (used total : ℚ) : ℤ :=
  if total = 0 then 0
  else min 100 (jsRound (used / total * 100))

/-! ## Risk score and category ladder
getRiskGaugeColor is from medfin-frontend src/lib/utils.ts; the risk
synthesizer itself is not in the repository sources, so its overall-score
combination is modelled from the specification. -/

inductive GaugeColor where
  | red
  | orange
  | yellow
  | blue
  | green
deriving DecidableEq, Repr

/-- utils.ts lines 467-473: the color band ladder on the overall risk
score, with breakpoints 20, 40, 60, 80. -/
def getRiskGaugeColor (score : ℚ) : GaugeColor :=
  if 80 ≤ score then .red
  else if 60 ≤ score then .orange
  else if 40 ≤ score then .yellow
  else if 20 ≤ score then .blue
  else .green

/-- medfin-frontend src/types/index.ts line 7: the risk category tags. -/
inductive RiskCategory where
  | critical
  | high
  | moderate
  | low
  | minimal
deriving DecidableEq, Repr

/-- Modelled from the spec: the risk synthesizer is absent from the
sources; the specification and technical_documentation.md section 3.4
assign the category by table lookup on the overall score with the same
breakpoint ladder (80+/60+/40+/20+/else). -/
def riskCategoryOfScore (score : ℚ) : RiskCategory :=
  if 80 ≤ score then .critical
  else if 60 ≤ score then .high
  else if 40 ≤ score then .moderate
  else if 20 ≤ score then .low
  else .minimal

/-- The color the gauge ladder associates to each category band. -/
def gaugeColorOfCategory : RiskCategory → GaugeColor
  | .critical => .red
  | .high => .orange
  | .moderate => .yellow
  | .low => .blue
  | .minimal => .green

/-- Numeric position of a category on the severity ladder, for stating
monotonicity. -/
def categoryLevel : RiskCategory → ℕ
  | .minimal => 0
  | .low => 1
  | .moderate => 2
  | .high => 3
  | .critical => 4

/-- Modelled from the spec: the risk synthesizer is absent from the
sources; per specification section 4.2 the overall score is the weighted
sum of the dimension scores, overall = sum of (score * weight), over a
profile given as (score, weight) pairs. -/
def overallRiskScore (dims : List (ℚ × ℚ)) : ℚ :=
  (dims.map fun d => d.1 * d.2).sum

/-! ## LLM-backed plan generation
generateActionPlan from unnamed/part_004 lines 89-132.  The Gemini call
is an external collaborator; its parsed JSON reply enters the embedding
as the list of plan items, and the per-item crypto.randomUUID() draws
enter as an ambient stream of identifier strings. -/

structure AnalyzedBill where
  id : String
  providerName : String
  totalAmount : ℚ
  issues : List String
deriving DecidableEq, Repr

/-- One parsed item of the LLM's JSON reply (part_004 lines 100-112). -/
structure PlanItem where
  title : String
  description : String
  priority : String
  estimatedSavings : ℚ
  category : String
deriving DecidableEq, Repr

/-- src/types.ts lines 31-39. -/
structure NavigationAction where
  id : String
  title : String
  description : String
  priority : String
  estimatedSavings : ℚ
  status : String
  category : String
deriving DecidableEq, Repr

/-- Pair every list element with its zero-based position. -/
def enumIdx (n : ℕ) : List α → List (ℕ × α)
  | [] => []
  | a :: l => (n, a) :: enumIdx (n + 1) l

/-- part_004 lines 89-132: return [] on empty bills, otherwise map the
parsed LLM items, attaching a fresh random UUID and a pending status to
each (`data.map(item => ({...item, id: crypto.randomUUID(), status:
'pending'}))`). -/
def generateActionPlan (bills : List AnalyzedBill) (llmItems : List PlanItem)
    (uuid : ℕ → String) : List NavigationAction :=
  match bills with
  | [] => []
  | _ :: _ =>
    (enumIdx 0 llmItems).map fun p =>
      { id := uuid p.1
        title := p.2.title
        description := p.2.description
        priority := p.2.priority
        estimatedSavings := p.2.estimatedSavings
        status := "pending"
        category := p.2.category }

/-- Erase the randomly drawn identifier of an action. -/
def forgetId (a : NavigationAction) : NavigationAction :=
  { a with id := "" }

/-! ## Ranking engine
The ranking engine itself is absent from the repository sources (the
front ends only display ranked recommendations, filling in mock ranks by
list position); it is modelled from specification section 4.4. -/

/-- medfin-frontend src/types/index.ts line 21: base priority tags. -/
inductive Priority where
  | critical
  | high
  | medium
  | low
  | info
deriving DecidableEq, Repr

/-- Numeric height of a base priority, for descending comparisons. -/
def prioVal : Priority → ℕ
  | .critical => 4
  | .high => 3
  | .medium => 2
  | .low => 1
  | .info => 0

/-- medfin-frontend src/types/index.ts lines 115-121: the five ranking
factors. -/
structure RankingFactors where
  urgencyScore : ℚ
  savingsImpactScore : ℚ
  successScore : ℚ
  riskReductionScore : ℚ
  easeScore : ℚ
deriving DecidableEq, Repr

/-- A recommendation as it enters the ranking engine: its five factors
and its base priority. -/
structure RankCand where
  factors : RankingFactors
  priority : Priority
deriving DecidableEq, Repr

/-- Modelled from the spec: composite score as the weighted sum of the
five factors (savings 30%, urgency 25%, success 20%, ease 15%,
risk-reduction 10%), specification section 4.4. -/
def compositeScore (c : RankCand) : ℚ :=
  (30 * c.factors.savingsImpactScore + 25 * c.factors.urgencyScore +
    20 * c.factors.successScore + 15 * c.factors.easeScore +
    10 * c.factors.riskReductionScore) / 100

/-- A candidate paired with its rule declaration index. -/
structure RankEntry where
  cand : RankCand
  declIndex : ℕ
deriving DecidableEq, Repr

/-- Modelled from the spec: the ordering of specification section 4.4 -
composite score descending, ties by base priority descending, then by
rule declaration order (first-declared wins). -/
def RankBefore (a b : RankEntry) : Prop :=
  compositeScore b.cand < compositeScore a.cand ∨
    (compositeScore a.cand = compositeScore b.cand ∧
      (prioVal b.cand.priority < prioVal a.cand.priority ∨
        (prioVal a.cand.priority = prioVal b.cand.priority ∧
          a.declIndex ≤ b.declIndex)))

instance decRankBefore : DecidableRel RankBefore := fun a b => by
  unfold RankBefore
  exact inferInstance

/-- Insert one entry into an already ranked-ordered list. -/
def insertRanked (a : RankEntry) : List RankEntry → List RankEntry
  | [] => [a]
  | b :: l => if RankBefore a b then a :: b :: l else b :: insertRanked a l

/-- Insertion sort by the ranking order. -/
def sortRanked : List RankEntry → List RankEntry
  | [] => []
  | a :: l => insertRanked a (sortRanked l)

/-- A ranked recommendation: the entry plus its assigned final rank
(medfin-frontend src/types/index.ts lines 123-129). -/
structure RankedRec where
  entry : RankEntry
  finalRank : ℕ
deriving DecidableEq, Repr

/-- Composite score carried by a ranked recommendation. -/
def RankedRec.score (r : RankedRec) : ℚ :=
  compositeScore r.entry.cand

/-- Assign 1-based dense ranks by position. -/
def assignRanks (n : ℕ) : List RankEntry → List RankedRec
  | [] => []
  | a :: l => ⟨a, n⟩ :: assignRanks (n + 1) l

/-- Modelled from the spec: rank a declaration-ordered list of candidate
recommendations - index by declaration order, sort by the section 4.4
ordering, assign finalRank as the 1-based position. -/
def rankRecs (recs : List RankCand) : List RankedRec :=
  assignRanks 1 (sortRanked ((enumIdx 0 recs).map fun p => ⟨p.2, p.1⟩))

/-! ## Plan assembler
The plan assembler is absent from the repository sources (the ActionPlan
shape is declared in medfin-frontend src/types/index.ts lines 135-140 and
rendered by the ActionTimeline component in unnamed/part_008); bucketing
is modelled from specification section 4.5. -/

inductive Horizon where
  | immediate
  | thisWeek
  | thisMonth
  | ongoing
deriving DecidableEq, Repr

/-- A recommendation as it enters plan assembly: its base priority and,
when present, the hours until its deadline measured from the injected
current date. -/
structure PlanRec where
  ident : ℕ
  priority : Priority
  deadlineHours : Option ℚ
deriving DecidableEq, Repr

/-- Whether the recommendation's deadline falls within the given number
of hours. -/
def deadlineWithin (r : PlanRec) (limit : ℚ) : Prop :=
  ∃ d, r.deadlineHours = some d ∧ d ≤ limit

instance decDeadlineWithin (r : PlanRec) (limit : ℚ) :
    Decidable (deadlineWithin r limit) := by
  unfold deadlineWithin
  match h : r.deadlineHours with
  | none => exact .isFalse (by simp [h])
  | some d => exact decidable_of_iff (d ≤ limit) (by simp [h])

/-- Modelled from the spec: the horizon bucket of one recommendation,
specification section 4.5 - immediate when priority is critical or the
deadline is within 48 hours, thisWeek when high or within 7 days,
thisMonth when medium or within 30 days, else ongoing, first match wins. -/
def horizonOf (r : PlanRec) : Horizon :=
  if r.priority = .critical ∨ deadlineWithin r 48 then .immediate
  else if r.priority = .high ∨ deadlineWithin r (7 * 24) then .thisWeek
  else if r.priority = .medium ∨ deadlineWithin r (30 * 24) then .thisMonth
  else .ongoing

/-- The list of recommendations landing in one bucket. -/
def bucket (recs : List PlanRec) (h : Horizon) : List PlanRec :=
  recs.filter fun r => decide (horizonOf r = h)

/-- medfin-frontend src/types/index.ts lines 135-140. -/
structure ActionPlan where
  immediate : List PlanRec
  thisWeek : List PlanRec
  thisMonth : List PlanRec
  ongoing : List PlanRec
deriving DecidableEq, Repr

/-- Modelled from the spec: assemble the four-bucket action plan from the
ranked recommendation list, specification section 4.5. -/
def assemblePlan (recs : List PlanRec) : ActionPlan :=
  { immediate := bucket recs .immediate
    thisWeek := bucket recs .thisWeek
    thisMonth := bucket recs .thisMonth
    ongoing := bucket recs .ongoing }

/-! ## Theorems -/

/-- C2, code evaluation at the failing input: for household size 2 the
eligibility handler computes threshold 19720 dollars from its hard-coded
constants (the 2023 figures 14580/5140), not the 20440 dollars the claim
and the repository's own documentation (2024 figures 15060/5380) give;
with annual income 20000 the handler reports an FPL percentage above 101
instead of about 97.9. -/
theorem fplConstantsDivergeFromDoc :
    serverFplThreshold 2 = 19720 ∧
    fplThreshold docFplBase docFplPerPerson 2 = 20440 ∧
    serverFplThreshold 2 ≠ fplThreshold docFplBase docFplPerPerson 2 ∧
    (101 : ℚ) < serverFplPercentage 20000 2 ∧
    (97 : ℚ) < fplPercentage 20000 (fplThreshold docFplBase docFplPerPerson 2) ∧
    fplPercentage 20000 (fplThreshold docFplBase docFplPerPerson 2) < 98 := by
  norm_num [serverFplThreshold, serverFplPercentage, fplThreshold, fplPercentage,
    fplBase, fplPerPerson, docFplBase, docFplPerPerson]

/-- C8, counterexample: at household size 2 the handler's threshold is the
hard-coded 19720 dollars and differs from the 20440 dollars that the
documented caller-side 2024 configuration pair would dictate, so no
caller-supplied pair reaches the computation. -/
theorem fplConfigPairIgnored :
    serverFplThreshold 2 = 19720 ∧
    (19720 : ℚ) ≠ fplThreshold docFplBase docFplPerPerson 2 := by
  norm_num [serverFplThreshold, fplThreshold, fplBase, fplPerPerson,
    docFplBase, docFplPerPerson]

/-- C8, amended: the FPL base and per-person increment of the eligibility
handler are the fixed constants 14580 and 5140 - the handler's threshold
agrees with the formula at exactly this one pair, so no caller-supplied
configuration can alter it. -/
theorem serverFplHardcoded :
    (∀ h : ℚ, serverFplThreshold h = fplThreshold 14580 5140 h) ∧
    ∀ base perPerson : ℚ,
      (∀ h : ℚ, serverFplThreshold h = fplThreshold base perPerson h) →
      base = 14580 ∧ perPerson = 5140 := by
  constructor
  · intro h
    rfl
  · intro base perPerson hEq
    have h1 := hEq 1
    have h2 := hEq 2
    simp only [serverFplThreshold, fplThreshold, fplBase, fplPerPerson] at h1 h2
    norm_num at h1 h2
    constructor <;> linarith

/-- C8, witness: the hard-coded pair itself realizes the hypothesis of
the uniqueness statement. -/
theorem serverFplHardcoded_case : (14580 : ℚ) = 14580 ∧ (5140 : ℚ) = 5140 :=
  serverFplHardcoded.2 14580 5140 fun h => serverFplHardcoded.1 h

/-- C3, counterexample: in the MongoDB-backed server the remaining
out-of-pocket amount is not clamped - with maximum 100 and 150 already
met it comes out as -50, a negative value differing from
max(0, limit - used). -/
theorem mongoOopRemainingNegative :
    mongoRemainingOOP ⟨2000, 500, 100, 150, 20⟩ = -50 ∧
    mongoRemainingOOP ⟨2000, 500, 100, 150, 20⟩ < 0 ∧
    mongoRemainingOOP ⟨2000, 500, 100, 150, 20⟩ ≠ max 0 ((100 : ℚ) - 150) := by
  norm_num [mongoRemainingOOP, max_def]

/-- C3, amended: the deductible remainder is max(0, limit - used) and
hence nonnegative in both backends, and the demo server also clamps the
out-of-pocket remainder; but the MongoDB-backed server computes the
out-of-pocket remainder as limit - used without a clamp, so it is only
nonnegative when the amount used stays within the limit. -/
theorem remainingAmountsClamped (ins : InsuranceInfo) (cost : ℚ) :
    mongoRemainingDeductible ins = max 0 (ins.deductible - ins.deductibleMet) ∧
    0 ≤ mongoRemainingDeductible ins ∧
    0 ≤ (demoEstimate ins cost).deductibleRemaining ∧
    0 ≤ demoRemainingOOP ins ∧
    0 ≤ (demoEstimate ins cost).oopRemaining ∧
    mongoRemainingOOP ins = ins.outOfPocketMax - ins.outOfPocketMet ∧
    (ins.outOfPocketMet ≤ ins.outOfPocketMax → 0 ≤ mongoRemainingOOP ins) := by
  refine ⟨rfl, le_max_left _ _, ?_, le_max_left _ _, ?_, rfl, ?_⟩
  · simp only [demoEstimate]
    exact le_max_left _ _
  · simp only [demoEstimate]
    exact le_max_left _ _
  · intro h
    simp only [mongoRemainingOOP]
    linarith

/-- C3, witness: with out-of-pocket maximum 8000 and 1000 met, the
MongoDB server's unclamped remainder is nonnegative. -/
theorem remainingAmountsClamped_case :
    (1000 : ℚ) ≤ 8000 ∧ 0 ≤ mongoRemainingOOP ⟨2000, 500, 8000, 1000, 20⟩ :=
  ⟨by norm_num,
    (remainingAmountsClamped ⟨2000, 500, 8000, 1000, 20⟩ 0).2.2.2.2.2.2
      (by norm_num)⟩

/-- C10: both backend variants set negotiatedAmount to exactly 0.7 times
originalAmount and status to negotiating, leaving originalAmount
unchanged. -/
theorem negotiateSetsAmounts (b : BillRec) :
    (mongoNegotiate b).negotiatedAmount = some (7 / 10 * b.originalAmount) ∧
    (mongoNegotiate b).status = "negotiating" ∧
    (mongoNegotiate b).originalAmount = b.originalAmount ∧
    (demoNegotiate b).negotiatedAmount = some (7 / 10 * b.originalAmount) ∧
    (demoNegotiate b).status = "negotiating" ∧
    (demoNegotiate b).originalAmount = b.originalAmount := by
  simp [mongoNegotiate, demoNegotiate, mul_comm]

/-- C4, counterexample: calculateProgressPercent caps its result at 100,
so for used 200 against limit 100 it returns 100 and not the raw
used / limit * 100 = 200 the claim states. -/
theorem progressPercentCapped :
    calculateProgressPercent 200 100 = 100 ∧
    (200 : ℚ) / 100 * 100 = 200 ∧
    calculateProgressPercent 200 100 ≠ 200 := by
  norm_num [calculateProgressPercent, jsRound]

/-- C4, amended: for nonnegative inputs, calculateProgressPercent returns
0 when the limit is 0 (never dividing by zero), returns the rounded
percentage capped at 100 when the limit is positive, and always lands in
[0, 100]. -/
theorem progressPercentSafe (used total : ℚ) (hu : 0 ≤ used) (ht : 0 ≤ total) :
    (total = 0 → calculateProgressPercent used total = 0) ∧
    (total ≠ 0 → calculateProgressPercent used total =
      min 100 (jsRound (used / total * 100))) ∧
    0 ≤ calculateProgressPercent used total ∧
    calculateProgressPercent used total ≤ 100 := by
  unfold calculateProgressPercent
  by_cases h : total = 0
  · simp [h]
  · simp only [if_neg h]
    have htpos : 0 < total := lt_of_le_of_ne ht (Ne.symm h)
    have hq : 0 ≤ used / total * 100 := by positivity
    have hfl : (0 : ℤ) ≤ jsRound (used / total * 100) := by
      unfold jsRound
      exact Int.le_floor.mpr (by push_cast; linarith)
    exact ⟨fun h' => absurd h' h, fun _ => trivial,
      le_min (by norm_num) hfl, min_le_left _ _⟩

/-- C4, witness: one quarter used of a limit of four is reported as 25,
inside [0, 100]. -/
theorem progressPercentSafe_case :
    0 ≤ calculateProgressPercent 1 4 ∧ calculateProgressPercent 1 4 ≤ 100 :=
  ⟨(progressPercentSafe 1 4 (by norm_num) (by norm_num)).2.2.1,
    (progressPercentSafe 1 4 (by norm_num) (by norm_num)).2.2.2⟩

/-- C9, counterexample: for a 100-dollar procedure under a plan with a
1500-dollar-remaining deductible case (deductible 2000, nothing met), the
MongoDB-backed server charges the whole remaining deductible - 2000
dollars of out-of-pocket for a 100-dollar bill, with insurance paying
-1900 - while the demo server caps the deductible portion at the bill and
returns 100 out of pocket with insurance paying 0. -/
theorem estimateImplsDiverge :
    (mongoEstimate ⟨2000, 0, 8000, 0, 20⟩ 100).totalOutOfPocket = 2000 ∧
    (demoEstimate ⟨2000, 0, 8000, 0, 20⟩ 100).totalOutOfPocket = 100 ∧
    (mongoEstimate ⟨2000, 0, 8000, 0, 20⟩ 100).totalOutOfPocket ≠
      (demoEstimate ⟨2000, 0, 8000, 0, 20⟩ 100).totalOutOfPocket ∧
    (mongoEstimate ⟨2000, 0, 8000, 0, 20⟩ 100).insurancePays = -1900 ∧
    (demoEstimate ⟨2000, 0, 8000, 0, 20⟩ 100).insurancePays = 0 := by
  norm_num [mongoEstimate, demoEstimate, mongoRemainingDeductible,
    mongoRemainingOOP, demoRemainingOOP, jsOrDefault, max_def, min_def]

/-- C9, amended: the two estimate implementations agree - on the whole
response - whenever the demo server's zero-defaulting is inert (nonzero
deductible, out-of-pocket maximum and coinsurance), the amount already
met stays within the out-of-pocket maximum, the coinsurance rate is a
percentage in [0, 100], and the bill covers the remaining deductible;
outside these conditions they diverge as the counterexample shows. -/
theorem estimateEquiv (ins : InsuranceInfo) (cost : ℚ)
    (hd : ins.deductible ≠ 0) (ho : ins.outOfPocketMax ≠ 0)
    (hc : ins.coinsurance ≠ 0)
    (hoop : ins.outOfPocketMet ≤ ins.outOfPocketMax)
    (hc0 : 0 ≤ ins.coinsurance) (hc100 : ins.coinsurance ≤ 100)
    (hcost : mongoRemainingDeductible ins ≤ cost) :
    mongoEstimate ins cost = demoEstimate ins cost := by
  obtain ⟨d, dm, M, m, c⟩ := ins
  simp only [mongoRemainingDeductible] at hcost
  simp only at hd ho hc hoop hc0 hc100 hcost
  have hR0 : (0 : ℚ) ≤ max 0 (d - dm) := le_max_left _ _
  have hca : max 0 (cost - max 0 (d - dm)) = cost - max 0 (d - dm) :=
    max_eq_right (by linarith)
  have hdp : min (max 0 (d - dm)) cost = max 0 (d - dm) := min_eq_left hcost
  have hro : max 0 (M - m) = M - m := max_eq_right (by linarith)
  have hAle : (cost - max 0 (d - dm)) * (c / 100) ≤ cost - max 0 (d - dm) := by
    nlinarith
  have hA0 : 0 ≤ (cost - max 0 (d - dm)) * (c / 100) := by
    have : (0 : ℚ) ≤ cost - max 0 (d - dm) := by linarith
    positivity
  have hT : min (max 0 (d - dm) + (cost - max 0 (d - dm)) * (c / 100)) (M - m) ≤
      cost := le_trans (min_le_left _ _) (by linarith)
  have hTM : min (max 0 (d - dm) + (cost - max 0 (d - dm)) * (c / 100)) (M - m) ≤
      M - m := min_le_right _ _
  simp only [mongoEstimate, demoEstimate, mongoRemainingDeductible,
    mongoRemainingOOP, demoRemainingOOP, jsOrDefault, if_neg hd, if_neg ho,
    if_neg hc, hro, hca, hdp, EstimateResult.mk.injEq]
  refine ⟨trivial, trivial, trivial, trivial, (max_eq_right (by linarith)).symm,
    trivial, (max_eq_right (by linarith)).symm⟩

/-- C9, witness: a 2000-dollar procedure under the demo user's insurance
state is estimated identically by both servers. -/
theorem estimateEquiv_case :
    mongoEstimate ⟨2000, 500, 8000, 1000, 20⟩ 2000 =
      demoEstimate ⟨2000, 500, 8000, 1000, 20⟩ 2000 :=
  estimateEquiv ⟨2000, 500, 8000, 1000, 20⟩ 2000 (by norm_num) (by norm_num)
    (by norm_num) (by norm_num) (by norm_num) (by norm_num)
    (by norm_num [mongoRemainingDeductible, max_def])

/-- C1, counterexample: two runs of generateActionPlan on byte-identical
bills and identical parsed LLM output still differ whenever the ambient
crypto.randomUUID draws differ, so the operation's output is not a
function of its input alone and the no-randomness determinism law fails. -/
theorem planGenUuidDependent :
    generateActionPlan
        [⟨"b1", "General Hospital", 1200, ["duplicate charge"]⟩]
        [⟨"Dispute the duplicate", "Call the billing office", "high", 150,
          "bill_review"⟩]
        (fun _ => "uuid-a") ≠
      generateActionPlan
        [⟨"b1", "General Hospital", 1200, ["duplicate charge"]⟩]
        [⟨"Dispute the duplicate", "Call the billing office", "high", 150,
          "bill_review"⟩]
        (fun _ => "uuid-b") := by
  simp [generateActionPlan, enumIdx]

/-- Auxiliary: stripping the drawn identifiers from the generated items
leaves a value independent of the identifier stream. -/
theorem enumIdx_map_forgetId (u : ℕ → String) (items : List PlanItem) (n : ℕ) :
    ((enumIdx n items).map fun p =>
        forgetId
          { id := u p.1
            title := p.2.title
            description := p.2.description
            priority := p.2.priority
            estimatedSavings := p.2.estimatedSavings
            status := "pending"
            category := p.2.category }) =
      items.map fun it =>
        { id := ""
          title := it.title
          description := it.description
          priority := it.priority
          estimatedSavings := it.estimatedSavings
          status := "pending"
          category := it.category } := by
  induction items generalizing n with
  | nil => rfl
  | cons a l ih =>
    simp only [enumIdx, List.map_cons, ih]
    simp [forgetId]

/-- C1, amended: with the LLM reply and the UUID stream made explicit
inputs, plan generation is a pure function, and everything except the
randomly drawn id field is independent of the UUID stream - so two calls
with byte-identical bills and identical LLM output agree after erasing
the ids, while the ids themselves (and the nondeterministic LLM reply)
can differ between calls. -/
theorem planGenDeterministicUpToIds (bills : List AnalyzedBill)
    (llmItems : List PlanItem) (u v : ℕ → String) :
    (generateActionPlan bills llmItems u).map forgetId =
      (generateActionPlan bills llmItems v).map forgetId := by
  cases bills with
  | nil => rfl
  | cons b bs =>
    show ((enumIdx 0 llmItems).map _).map forgetId =
      ((enumIdx 0 llmItems).map _).map forgetId
    rw [List.map_map, List.map_map]
    show ((enumIdx 0 llmItems).map fun p => forgetId _) =
      (enumIdx 0 llmItems).map fun p => forgetId _
    rw [enumIdx_map_forgetId u, enumIdx_map_forgetId v]

/-- Auxiliary: a weighted sum of scores is nonnegative when scores and
weights are. -/
theorem overallRiskScore_nonneg (dims : List (ℚ × ℚ))
    (hs : ∀ d ∈ dims, 0 ≤ d.1 ∧ d.1 ≤ 100 ∧ 0 ≤ d.2) :
    0 ≤ overallRiskScore dims := by
  induction dims with
  | nil => simp [overallRiskScore]
  | cons a l ih =>
    have ha := hs a (List.mem_cons_self a l)
    have hl := ih fun d hd => hs d (List.mem_cons_of_mem a hd)
    simp only [overallRiskScore, List.map_cons, List.sum_cons] at hl ⊢
    have : 0 ≤ a.1 * a.2 := mul_nonneg ha.1 ha.2.2
    linarith

/-- Auxiliary: a weighted sum of scores bounded by 100 is at most 100
times the total weight. -/
theorem overallRiskScore_le (dims : List (ℚ × ℚ))
    (hs : ∀ d ∈ dims, 0 ≤ d.1 ∧ d.1 ≤ 100 ∧ 0 ≤ d.2) :
    overallRiskScore dims ≤ 100 * (dims.map Prod.snd).sum := by
  induction dims with
  | nil => simp [overallRiskScore]
  | cons a l ih =>
    have ha := hs a (List.mem_cons_self a l)
    have hl := ih fun d hd => hs d (List.mem_cons_of_mem a hd)
    simp only [overallRiskScore, List.map_cons, List.sum_cons] at hl ⊢
    have : a.1 * a.2 ≤ 100 * a.2 := mul_le_mul_of_nonneg_right ha.2.1 ha.2.2
    linarith

/-- C5: for a valid profile (dimension scores in [0,100], nonnegative
weights summing to one) the overall risk score lies in [0,100]; the
category ladder is monotone with the non-overlapping bands
[0,20), [20,40), [40,60), [60,80), [80,..] exactly matching the
getRiskGaugeColor breakpoints of the source; and the category is a
function solely of the overall score, so equal scores always give equal
categories. -/
theorem riskScoreRangeAndLadder (dims : List (ℚ × ℚ))
    (hs : ∀ d ∈ dims, 0 ≤ d.1 ∧ d.1 ≤ 100 ∧ 0 ≤ d.2)
    (hw : (dims.map Prod.snd).sum = 1) :
    (0 ≤ overallRiskScore dims ∧ overallRiskScore dims ≤ 100) ∧
    (∀ s t : ℚ, s ≤ t →
      categoryLevel (riskCategoryOfScore s) ≤
        categoryLevel (riskCategoryOfScore t)) ∧
    (∀ s : ℚ,
      (riskCategoryOfScore s = .minimal ↔ s < 20) ∧
      (riskCategoryOfScore s = .low ↔ 20 ≤ s ∧ s < 40) ∧
      (riskCategoryOfScore s = .moderate ↔ 40 ≤ s ∧ s < 60) ∧
      (riskCategoryOfScore s = .high ↔ 60 ≤ s ∧ s < 80) ∧
      (riskCategoryOfScore s = .critical ↔ 80 ≤ s)) ∧
    (∀ s : ℚ, getRiskGaugeColor s = gaugeColorOfCategory (riskCategoryOfScore s)) ∧
    (∀ dims2 : List (ℚ × ℚ), overallRiskScore dims = overallRiskScore dims2 →
      riskCategoryOfScore (overallRiskScore dims) =
        riskCategoryOfScore (overallRiskScore dims2)) := by
  refine ⟨⟨overallRiskScore_nonneg dims hs, ?_⟩, ?_, ?_, ?_, ?_⟩
  · have := overallRiskScore_le dims hs
    rw [hw] at this
    linarith
  · intro s t hst
    unfold riskCategoryOfScore
    split_ifs <;> simp [categoryLevel] <;> linarith
  · intro s
    unfold riskCategoryOfScore
    split_ifs <;> refine ⟨?_, ?_, ?_, ?_, ?_⟩ <;> simp_all <;> intros <;> linarith
  · intro s
    unfold getRiskGaugeColor riskCategoryOfScore gaugeColorOfCategory
    split_ifs <;> rfl
  · intro dims2 h
    rw [h]

/-- C5, witness: a single dimension of score 50 with full weight gives an
overall score inside [0, 100]. -/
theorem riskScoreRange_case :
    0 ≤ overallRiskScore [(50, 1)] ∧ overallRiskScore [(50, 1)] ≤ 100 :=
  (riskScoreRangeAndLadder [(50, 1)]
    (by intro d hd; rw [List.mem_singleton] at hd; subst hd; norm_num)
    (by simp)).1

/-- Auxiliary: the ranking order is total. -/
theorem rankBefore_total (a b : RankEntry) : RankBefore a b ∨ RankBefore b a := by
  unfold RankBefore
  rcases lt_trichotomy (compositeScore a.cand) (compositeScore b.cand) with h | h | h
  · right
    left
    exact h
  · rcases Nat.lt_trichotomy (prioVal a.cand.priority) (prioVal b.cand.priority)
      with hp | hp | hp
    · right
      right
      exact ⟨h.symm, Or.inl hp⟩
    · rcases Nat.le_total a.declIndex b.declIndex with hi | hi
      · left
        right
        exact ⟨h, Or.inr ⟨hp, hi⟩⟩
      · right
        right
        exact ⟨h.symm, Or.inr ⟨hp.symm, hi⟩⟩
    · left
      right
      exact ⟨h, Or.inl hp⟩
  · left
    left
    exact h

/-- Auxiliary: the ranking order is transitive. -/
theorem rankBefore_trans {a b c : RankEntry} (hab : RankBefore a b)
    (hbc : RankBefore b c) : RankBefore a c := by
  unfold RankBefore at hab hbc ⊢
  rcases hab with h1 | ⟨e1, h1⟩
  · rcases hbc with h2 | ⟨e2, h2⟩
    · exact Or.inl (h2.trans h1)
    · rw [e2] at h1
      exact Or.inl h1
  · rcases hbc with h2 | ⟨e2, h2⟩
    · rw [e1]
      exact Or.inl h2
    · refine Or.inr ⟨e1.trans e2, ?_⟩
      rcases h1 with hp1 | ⟨ep1, hi1⟩
      · rcases h2 with hp2 | ⟨ep2, hi2⟩
        · exact Or.inl (hp2.trans hp1)
        · rw [ep2] at hp1
          exact Or.inl hp1
      · rcases h2 with hp2 | ⟨ep2, hi2⟩
        · rw [ep1]
          exact Or.inl hp2
        · exact Or.inr ⟨ep1.trans ep2, hi1.trans hi2⟩

/-- Auxiliary: membership in an insertion. -/
theorem mem_insertRanked {x a : RankEntry} {l : List RankEntry} :
    x ∈ insertRanked a l ↔ x = a ∨ x ∈ l := by
  induction l with
  | nil => simp [insertRanked]
  | cons b t ih =>
    unfold insertRanked
    by_cases h : RankBefore a b
    · simp [h]
    · rw [if_neg h]
      simp only [List.mem_cons, ih]
      tauto

/-- Auxiliary: insertion permutes. -/
theorem insertRanked_perm (a : RankEntry) (l : List RankEntry) :
    List.Perm (insertRanked a l) (a :: l) := by
  induction l with
  | nil => exact List.Perm.refl _
  | cons b t ih =>
    unfold insertRanked
    by_cases h : RankBefore a b
    · rw [if_pos h]
    · rw [if_neg h]
      exact (ih.cons b).trans (List.Perm.swap a b t)

/-- Auxiliary: insertion sort permutes. -/
theorem sortRanked_perm (l : List RankEntry) : List.Perm (sortRanked l) l := by
  induction l with
  | nil => exact List.Perm.refl _
  | cons a t ih => exact (insertRanked_perm a (sortRanked t)).trans (ih.cons a)

/-- Auxiliary: insertion preserves ordering. -/
theorem pairwise_insertRanked {a : RankEntry} {l : List RankEntry}
    (hl : l.Pairwise RankBefore) :
    (insertRanked a l).Pairwise RankBefore := by
  induction l with
  | nil => simp [insertRanked]
  | cons b t ih =>
    rcases List.pairwise_cons.mp hl with ⟨hb, ht⟩
    unfold insertRanked
    by_cases h : RankBefore a b
    · rw [if_pos h]
      refine List.pairwise_cons.mpr ⟨?_, hl⟩
      intro x hx
      rcases List.mem_cons.mp hx with rfl | hx
      · exact h
      · exact rankBefore_trans h (hb x hx)
    · rw [if_neg h]
      refine List.pairwise_cons.mpr ⟨?_, ih ht⟩
      intro x hx
      rcases mem_insertRanked.mp hx with rfl | hx
      · exact (rankBefore_total x b).resolve_left h
      · exact hb x hx

/-- Auxiliary: insertion sort sorts by the ranking order. -/
theorem pairwise_sortRanked (l : List RankEntry) :
    (sortRanked l).Pairwise RankBefore := by
  induction l with
  | nil => simp [sortRanked]
  | cons a t ih => exact pairwise_insertRanked ih

/-- Auxiliary: the ranks assigned starting at n are n, n+1, ... in order. -/
theorem map_finalRank_assignRanks (n : ℕ) (l : List RankEntry) :
    (assignRanks n l).map RankedRec.finalRank = List.range' n l.length := by
  induction l generalizing n with
  | nil => simp [assignRanks]
  | cons a t ih => simp [assignRanks, List.range'_succ, ih]

/-- Auxiliary: assigned ranks start at the given base. -/
theorem mem_assignRanks_rank_ge {r : RankedRec} {n : ℕ} {l : List RankEntry}
    (h : r ∈ assignRanks n l) : n ≤ r.finalRank := by
  induction l generalizing n with
  | nil => simp [assignRanks] at h
  | cons a t ih =>
    rcases List.mem_cons.mp h with rfl | h
    · exact le_refl n
    · exact le_trans (Nat.le_succ n) (ih h)

/-- Auxiliary: entries of rank assignments come from the sorted list. -/
theorem mem_assignRanks_entry {r : RankedRec} {n : ℕ} {l : List RankEntry}
    (h : r ∈ assignRanks n l) : r.entry ∈ l := by
  induction l generalizing n with
  | nil => simp [assignRanks] at h
  | cons a t ih =>
    rcases List.mem_cons.mp h with rfl | h
    · exact List.mem_cons_self a t
    · exact List.mem_cons_of_mem a (ih h)

/-- Auxiliary: distinct ranks only. -/
theorem assignRanks_rank_inj {n : ℕ} {l : List RankEntry} {a b : RankedRec}
    (ha : a ∈ assignRanks n l) (hb : b ∈ assignRanks n l)
    (h : a.finalRank = b.finalRank) : a = b := by
  induction l generalizing n with
  | nil => simp [assignRanks] at ha
  | cons c t ih =>
    rcases List.mem_cons.mp ha with rfl | ha
    · rcases List.mem_cons.mp hb with rfl | hb
      · rfl
      · have := mem_assignRanks_rank_ge hb
        dsimp only at h
        omega
    · rcases List.mem_cons.mp hb with rfl | hb
      · have := mem_assignRanks_rank_ge ha
        dsimp only at h
        omega
      · exact ih ha hb

/-- Auxiliary: a smaller rank means the entry came earlier in the sorted
list, hence is related to the later one by any pairwise-holding
relation. -/
theorem assignRanks_rank_lt {R : RankEntry → RankEntry → Prop}
    {l : List RankEntry} (hl : l.Pairwise R) {n : ℕ} {a b : RankedRec}
    (ha : a ∈ assignRanks n l) (hb : b ∈ assignRanks n l)
    (hrk : a.finalRank < b.finalRank) : R a.entry b.entry := by
  induction l generalizing n with
  | nil => simp [assignRanks] at ha
  | cons c t ih =>
    rcases List.pairwise_cons.mp hl with ⟨hc, ht⟩
    rcases List.mem_cons.mp ha with rfl | ha
    · rcases List.mem_cons.mp hb with rfl | hb
      · exact absurd hrk (lt_irrefl _)
      · exact hc _ (mem_assignRanks_entry hb)
    · rcases List.mem_cons.mp hb with rfl | hb
      · have := mem_assignRanks_rank_ge ha
        dsimp only at hrk
        omega
      · exact ih ht ha hb

/-- Auxiliary: enumeration preserves length. -/
theorem enumIdx_length (n : ℕ) (l : List α) : (enumIdx n l).length = l.length := by
  induction l generalizing n with
  | nil => rfl
  | cons a t ih => simp [enumIdx, ih]

/-- Auxiliary: declaration indices attached by enumeration are the
consecutive naturals from the start index. -/
theorem enumIdx_entries_declIndex (n : ℕ) (l : List RankCand) :
    (((enumIdx n l).map fun p => (⟨p.2, p.1⟩ : RankEntry)).map
        RankEntry.declIndex) = List.range' n l.length := by
  induction l generalizing n with
  | nil => rfl
  | cons a t ih => simp [enumIdx, List.range'_succ, ih]

/-- C6: ranking assigns finalRank as exactly the sequence 1..N (a
permutation with no duplicates and no gaps), two ranked recommendations
with equal rank are equal (no shared ranks), and on an exact
composite-score tie the earlier rank goes to the higher base priority,
or on a full priority tie to the earlier declaration index - a strict
deterministic order. -/
theorem rankingDense (recs : List RankCand) :
    ((rankRecs recs).map RankedRec.finalRank = List.range' 1 recs.length) ∧
    (∀ a b : RankedRec, a ∈ rankRecs recs → b ∈ rankRecs recs →
      a.finalRank = b.finalRank → a = b) ∧
    (∀ a b : RankedRec, a ∈ rankRecs recs → b ∈ rankRecs recs →
      a.score = b.score → a.finalRank < b.finalRank →
      prioVal b.entry.cand.priority < prioVal a.entry.cand.priority ∨
        (prioVal a.entry.cand.priority = prioVal b.entry.cand.priority ∧
          a.entry.declIndex < b.entry.declIndex)) := by
  set entries := (enumIdx 0 recs).map fun p => (⟨p.2, p.1⟩ : RankEntry) with hent
  have hperm := sortRanked_perm entries
  have hlen : (sortRanked entries).length = recs.length := by
    rw [hperm.length_eq, hent, List.length_map, enumIdx_length]
  have hnodup : ((sortRanked entries).map RankEntry.declIndex).Nodup := by
    have h1 : (entries.map RankEntry.declIndex).Nodup := by
      rw [hent, enumIdx_entries_declIndex]
      exact List.nodup_range' 0 recs.length
    exact ((hperm.map RankEntry.declIndex).nodup_iff).mpr h1
  have hpair : (sortRanked entries).Pairwise
      fun x y => RankBefore x y ∧ x.declIndex ≠ y.declIndex :=
    (pairwise_sortRanked entries).and (List.pairwise_map.mp hnodup)
  refine ⟨?_, ?_, ?_⟩
  · show (assignRanks 1 (sortRanked entries)).map RankedRec.finalRank = _
    rw [map_finalRank_assignRanks, hlen]
  · intro a b ha hb h
    exact assignRanks_rank_inj ha hb h
  · intro a b ha hb hsc hrk
    rcases assignRanks_rank_lt hpair ha hb hrk with ⟨hRb, hne⟩
    unfold RankBefore at hRb
    simp only [RankedRec.score] at hsc
    rcases hRb with hlt | ⟨heq, hrest⟩
    · rw [hsc] at hlt
      exact absurd hlt (lt_irrefl _)
    · rcases hrest with hp | ⟨hpe, hile⟩
      · exact Or.inl hp
      · exact Or.inr ⟨hpe, lt_of_le_of_ne hile hne⟩

/-- C6, witness: two candidates with identical factors (hence an exact
composite tie) where the second-declared has the higher base priority:
the ranks are distinct and the tie resolves by priority descending. -/
theorem rankingDense_case :
    prioVal ((⟨⟨⟨⟨70, 80, 75, 60, 70⟩, .low⟩, 0⟩, 2⟩ : RankedRec).entry.cand.priority) <
        prioVal ((⟨⟨⟨⟨70, 80, 75, 60, 70⟩, .high⟩, 1⟩, 1⟩ : RankedRec).entry.cand.priority) ∨
      (prioVal ((⟨⟨⟨⟨70, 80, 75, 60, 70⟩, .high⟩, 1⟩, 1⟩ : RankedRec).entry.cand.priority) =
          prioVal ((⟨⟨⟨⟨70, 80, 75, 60, 70⟩, .low⟩, 0⟩, 2⟩ : RankedRec).entry.cand.priority) ∧
        (⟨⟨⟨⟨70, 80, 75, 60, 70⟩, .high⟩, 1⟩, 1⟩ : RankedRec).entry.declIndex <
          (⟨⟨⟨⟨70, 80, 75, 60, 70⟩, .low⟩, 0⟩, 2⟩ : RankedRec).entry.declIndex) := by
  have hno : ¬ RankBefore ⟨⟨⟨70, 80, 75, 60, 70⟩, .low⟩, 0⟩
      ⟨⟨⟨70, 80, 75, 60, 70⟩, .high⟩, 1⟩ := by
    norm_num [RankBefore, compositeScore, prioVal]
  have hrr : rankRecs [⟨⟨70, 80, 75, 60, 70⟩, .low⟩, ⟨⟨70, 80, 75, 60, 70⟩, .high⟩] =
      [⟨⟨⟨⟨70, 80, 75, 60, 70⟩, .high⟩, 1⟩, 1⟩,
        ⟨⟨⟨⟨70, 80, 75, 60, 70⟩, .low⟩, 0⟩, 2⟩] := by
    simp only [rankRecs, enumIdx, List.map_cons, List.map_nil, sortRanked,
      insertRanked, if_neg hno, assignRanks]
  refine (rankingDense [⟨⟨70, 80, 75, 60, 70⟩, .low⟩,
      ⟨⟨70, 80, 75, 60, 70⟩, .high⟩]).2.2
    ⟨⟨⟨⟨70, 80, 75, 60, 70⟩, .high⟩, 1⟩, 1⟩
    ⟨⟨⟨⟨70, 80, 75, 60, 70⟩, .low⟩, 0⟩, 2⟩ ?_ ?_ ?_ ?_
  · rw [hrr]
    exact List.mem_cons_self _ _
  · rw [hrr]
    exact List.mem_cons_of_mem _ (List.mem_cons_self _ _)
  · norm_num [RankedRec.score, compositeScore]
  · exact Nat.one_lt_two

/-- Auxiliary: membership in a horizon bucket is membership in the input
with the matching horizon. -/
theorem mem_bucket {r : PlanRec} {recs : List PlanRec} {h : Horizon} :
    r ∈ bucket recs h ↔ r ∈ recs ∧ horizonOf r = h := by
  simp [bucket, List.mem_filter]

/-- C7: every recommendation lands in the assembled plan - the union of
the four horizon buckets is exactly the input recommendation set - and
each recommendation lies in exactly one bucket, so the buckets are
pairwise disjoint. -/
theorem planBucketsPartition (recs : List PlanRec) :
    (∀ r : PlanRec, r ∈ recs ↔
      (r ∈ (assemblePlan recs).immediate ∨ r ∈ (assemblePlan recs).thisWeek ∨
        r ∈ (assemblePlan recs).thisMonth ∨ r ∈ (assemblePlan recs).ongoing)) ∧
    (∀ r : PlanRec, r ∈ recs → ∃! h : Horizon, r ∈ bucket recs h) := by
  constructor
  · intro r
    constructor
    · intro hr
      have hb : r ∈ bucket recs (horizonOf r) := mem_bucket.mpr ⟨hr, rfl⟩
      cases hh : horizonOf r
      · rw [hh] at hb
        exact Or.inl hb
      · rw [hh] at hb
        exact Or.inr (Or.inl hb)
      · rw [hh] at hb
        exact Or.inr (Or.inr (Or.inl hb))
      · rw [hh] at hb
        exact Or.inr (Or.inr (Or.inr hb))
    · intro hr
      rcases hr with h | h | h | h <;> exact (mem_bucket.mp h).1
  · intro r hr
    exact ⟨horizonOf r, mem_bucket.mpr ⟨hr, rfl⟩,
      fun h hh => ((mem_bucket.mp hh).2).symm⟩

/-- C7, witness: a low-priority recommendation due in 24 hours sits in
exactly one bucket of its one-element plan. -/
theorem planBucketsPartition_case :
    ∃! h : Horizon, (⟨0, .low, some 24⟩ : PlanRec) ∈
      bucket [⟨0, .low, some 24⟩] h :=
  (planBucketsPartition [⟨0, .low, some 24⟩]).2 ⟨0, .low, some 24⟩
    (List.mem_cons_self _ _)

end MedFin
